import Mathlib

/-!
# Verification of `meltano/core/environment.py`

Shallow embedding of the module `meltano.core.environment`: the classes
`EnvironmentPluginConfig`, `EnvironmentConfig` and `Environment`.

Python values occurring in raw configuration mappings are modelled by the
mutually inductive types `JVal` (a JSON-like value), `JList` (a Python list of
values) and `JObj` (a Python `dict` with string keys, kept as an
insertion-ordered association list, which is how CPython dicts behave).

Python `dict` operations are modelled faithfully: item assignment `d[k] = v`
replaces the value in place when the key is present and appends otherwise
(`JObj.setItem`), and the double-splat merge `{**a, **b}` folds the items of
`b` into `a` by repeated item assignment (`JObj.dunion`).

`copy.deepcopy` and the aliasing/mutation claims about it are modelled
separately with an explicit heap (addresses, a store mapping addresses to
dict nodes, and a fuel-bounded snapshot function); see the `deepcopyVal`
development below.

The collaborators `PluginType` and `PluginRef` live in `meltano.core.plugin`,
which is outside this fragment; `PluginType` is modelled from the spec (see
its doc comment) and `PluginRef.__init__` simply stores the two identity
fields, which is what `super().__init__(plugin_type, name)` relies on.  The
`Canonical`/`NameEq` mixins only add serialization and name equality and do
not affect the behavior verified here (their `__init__` takes no data), so
they are not modelled.  Exceptions raised by the Python code are modelled by
`Except EnvError`.
-/

mutual

/-- Python value as it occurs in raw environment configuration: `None`,
booleans, integers, strings, lists and string-keyed dicts. -/
inductive JVal where
  | jnull : JVal
  | jbool : Bool → JVal
  | jint : Int → JVal
  | jstr : String → JVal
  | jarr : JList → JVal
  | jobj : JObj → JVal
deriving DecidableEq, Repr

/-- Python list of values. -/
inductive JList where
  | nil : JList
  | cons : JVal → JList → JList
deriving DecidableEq, Repr

/-- Python dict with string keys, as an insertion-ordered association list. -/
inductive JObj where
  | nil : JObj
  | cons : String → JVal → JObj → JObj
deriving DecidableEq, Repr

end

/-- Length of a Python list. -/
def JList.length : JList → Nat
  | .nil => 0
  | .cons _ tl => tl.length + 1

/-- Dict lookup `d[k]` / `d.get(k)`: the value stored at the first matching
key, if any. -/
def JObj.lookup : JObj → String → Option JVal
  | .nil, _ => none
  | .cons k v tl, key => if k = key then some v else tl.lookup key

/-- Dict item assignment `d[k] = v`: replaces the value in place when the key
is present, appends a new item otherwise.  This is CPython dict behavior. -/
def JObj.setItem : JObj → String → JVal → JObj
  | .nil, key, val => .cons key val .nil
  | .cons k v tl, key, val =>
    if k = key then .cons k val tl else .cons k v (tl.setItem key val)

/-- Python dict merge `{**a, **b}`: the items of `b` assigned one by one on
top of `a`, so keys of `b` win on collision. -/
def JObj.dunion : JObj → JObj → JObj
  | a, .nil => a
  | a, .cons k v tl => JObj.dunion (a.setItem k v) tl

/-- Keys of a dict, in insertion order. -/
def JObj.keys : JObj → List String
  | .nil => []
  | .cons k _ tl => k :: tl.keys

/-- Items of a dict as a standard list, in insertion order. -/
def JObj.toList : JObj → List (String × JVal)
  | .nil => []
  | .cons k v tl => (k, v) :: tl.toList

/-- Dict restricted to the keys not in `ks`: models the keyword arguments
left over for a `**kwargs` catch-all after named parameters are bound. -/
def JObj.dropKeys (ks : List String) : JObj → JObj
  | .nil => .nil
  | .cons k v tl => if k ∈ ks then tl.dropKeys ks else .cons k v (tl.dropKeys ks)

/-- Each key renamed by prepending one underscore, values untouched: the dict
comprehension of the `extra_config` property. -/
def JObj.underscoreKeys : JObj → JObj
  | .nil => .nil
  | .cons k v tl => .cons ("_" ++ k) v tl.underscoreKeys

/-- First key of the dict that is not in the allowed list: models the
unexpected-keyword-argument check Python performs when a dict is splatted
into a function that accepts only the named parameters in `allowed`. -/
def JObj.firstKeyNotIn (allowed : List String) : JObj → Option String
  | .nil => none
  | .cons k _ tl => if k ∈ allowed then tl.firstKeyNotIn allowed else some k

/-- Python truthiness of a value, as used by `config or {}`:
`None`, `False`, `0`, `""`, `[]` and `{}` are falsy. -/
def JVal.pyTruthy : JVal → Bool
  | .jnull => false
  | .jbool b => b
  | .jint i => i != 0
  | .jstr s => !s.isEmpty
  | .jarr .nil => false
  | .jarr _ => true
  | .jobj .nil => false
  | .jobj _ => true

/-- Python `v or d`: `v` when truthy, otherwise `d`. -/
def JVal.pyOrElse (v d : JVal) : JVal := if v.pyTruthy then v else d

/-- Modelled from the spec: the plugin type enumeration `PluginType` lives in
`meltano.core.plugin`, which is not part of this fragment.  The spec names
`"extractors"` and `"loaders"` as raw plugin-type keys ("Extractor, loader,
etc."), so those two members are modelled here. -/
inductive PluginType where
  | extractor : PluginType
  | loader : PluginType
deriving DecidableEq, Repr

/-- Modelled from the spec: resolution of a raw plugin-type string by the
enum-value call `PluginType(raw_plugin_type)`; per the spec, a string that
does not resolve to a known plugin type is an invalid-plugin-type error,
modelled here by `none`. -/
def PluginType.ofString : String → Option PluginType
  | "extractors" => some .extractor
  | "loaders" => some .loader
  | _ => none

/-- Exceptions raised (and propagated, never caught) by the embedded code. -/
inductive EnvError where
  /-- `ValueError` from `PluginType(raw_plugin_type)` on an unknown string. -/
  | invalidPluginType : String → EnvError
  /-- `TypeError`: a parameter received a value both positionally and by
  keyword (`self` or `plugin_type` appearing inside a splatted raw spec). -/
  | duplicateKeywordArgument : String → EnvError
  /-- `TypeError`: required argument `name` missing from a raw spec. -/
  | missingNameArgument : EnvError
  /-- `TypeError`: unexpected keyword argument from a splatted dict. -/
  | unexpectedKeywordArgument : String → EnvError
  /-- `TypeError`/`AttributeError`: a dict was required (for `.items()` or a
  `**` splat) but the value is not a dict. -/
  | notADict : EnvError
  /-- `TypeError`: a list of raw specs was required but the value is not a
  list. -/
  | notAList : EnvError
deriving DecidableEq, Repr

/-- Embedding of the class `EnvironmentPluginConfig(PluginRef)`:
`plugin_type` and `name` are the `PluginRef` identity fields stored by
`super().__init__(plugin_type, name)`, `config` is the stored
`copy.deepcopy(config or {})` (a pure value here; the heap-level model of the
deep copy is developed separately below), and `extras` the `**extras`
catch-all. -/
structure EnvironmentPluginConfig where
  plugin_type : PluginType
  name : JVal
  config : JVal
  extras : JObj
deriving DecidableEq, Repr

/-- Embedding of `EnvironmentPluginConfig.__init__` as called with a splatted
raw spec dict, `EnvironmentPluginConfig(plugin_type=plugin_type, **raw)`:
binds `name` (required) and `config` (default `None`) from the dict, rejects
a `self` key (CPython raises `TypeError: got multiple values for argument
'self'` because the instance is already bound to the first parameter) and a
`plugin_type` key (already given by keyword), captures every other item in
`extras`, and stores `copy.deepcopy(config or {})` — on pure values the deep
copy is the value itself. -/
def EnvironmentPluginConfig.ofRaw (pt : PluginType) (raw : JObj) :
    Except EnvError EnvironmentPluginConfig :=
  if (raw.lookup "self").isSome then
    .error (.duplicateKeywordArgument "self")
  else if (raw.lookup "plugin_type").isSome then
    .error (.duplicateKeywordArgument "plugin_type")
  else
    match raw.lookup "name" with
    | none => .error .missingNameArgument
    | some nm =>
      let cfgArg := (raw.lookup "config").getD JVal.jnull
      .ok ⟨pt, nm, cfgArg.pyOrElse (JVal.jobj .nil),
        raw.dropKeys ["name", "config", "plugin_type"]⟩

/-- Embedding of the property `EnvironmentPluginConfig.extra_config`:
`{f"_{key}": value for key, value in self.extras.items()}`. -/
def EnvironmentPluginConfig.extra_config (p : EnvironmentPluginConfig) : JObj :=
  p.extras.underscoreKeys

/-- Embedding of the property `EnvironmentPluginConfig.config_with_extras`:
`{**self.config, **self.extra_config}`; splatting a non-dict `config` raises
`TypeError`, modelled by `none`. -/
def EnvironmentPluginConfig.config_with_extras (p : EnvironmentPluginConfig) :
    Option JObj :=
  match p.config with
  | .jobj c => some (c.dunion p.extra_config)
  | _ => none

/-- Composite key of the plugins index: `(plugin_type, plugin.name)`. -/
abbrev PluginKey := PluginType × JVal

/-- The plugins index `Dict[Tuple[PluginType, str], EnvironmentPluginConfig]`,
as an insertion-ordered association list. -/
abbrev PluginMap := List (PluginKey × EnvironmentPluginConfig)

/-- Association-list lookup with decidable keys (first match). -/
def alookup {κ α : Type} [DecidableEq κ] : List (κ × α) → κ → Option α
  | [], _ => none
  | (k, v) :: tl, key => if k = key then some v else alookup tl key

/-- Association-list item assignment (CPython dict behavior: replace in place
when present, append otherwise), used for
`plugin_mapping[(plugin_type, plugin.name)] = plugin`. -/
def ainsert {κ α : Type} [DecidableEq κ] : List (κ × α) → κ → α → List (κ × α)
  | [], key, val => [(key, val)]
  | (k, v) :: tl, key, val =>
    if k = key then (k, val) :: tl else (k, v) :: ainsert tl key val

/-- Inner loop of `EnvironmentConfig.load_plugins`: `for raw_plugin in
raw_plugins`, building each `EnvironmentPluginConfig` and assigning it into
the accumulated mapping under `(plugin_type, plugin.name)`. -/
def loadGroupAux (pt : PluginType) : PluginMap → JList → Except EnvError PluginMap
  | acc, .nil => .ok acc
  | acc, .cons raw tl =>
    match raw with
    | .jobj rawObj =>
      match EnvironmentPluginConfig.ofRaw pt rawObj with
      | .error e => .error e
      | .ok plugin => loadGroupAux pt (ainsert acc (pt, plugin.name) plugin) tl
    | _ => .error .notADict

/-- Outer loop of `EnvironmentConfig.load_plugins`: `for raw_plugin_type,
raw_plugins in plugins.items()`, resolving each raw type string with
`PluginType(raw_plugin_type)` and then loading that group's raw specs. -/
def loadPluginsAux : PluginMap → JObj → Except EnvError PluginMap
  | acc, .nil => .ok acc
  | acc, .cons rawType rawPlugins tl =>
    match PluginType.ofString rawType with
    | none => .error (.invalidPluginType rawType)
    | some pt =>
      match rawPlugins with
      | .jarr rs =>
        match loadGroupAux pt acc rs with
        | .error e => .error e
        | .ok acc2 => loadPluginsAux acc2 tl
      | _ => .error .notAList

/-- Embedding of the method `EnvironmentConfig.load_plugins`: iterates
`plugins.items()` (so `plugins` must be a dict) and returns the index
`plugin_mapping`. -/
def EnvironmentConfig.load_plugins (plugins : JVal) : Except EnvError PluginMap :=
  match plugins with
  | .jobj groups => loadPluginsAux [] groups
  | _ => .error .notADict

/-- Embedding of the class `EnvironmentConfig(Canonical)`: its one data
attribute, the plugins index. -/
structure EnvironmentConfig where
  plugins : PluginMap
deriving DecidableEq, Repr

/-- Embedding of `EnvironmentConfig.__init__(plugins=None)`:
`self.plugins = self.load_plugins(plugins or {})`. -/
def EnvironmentConfig.ofPluginsArg (pluginsArg : Option JVal) :
    Except EnvError EnvironmentConfig :=
  (EnvironmentConfig.load_plugins
    ((pluginsArg.getD JVal.jnull).pyOrElse (JVal.jobj .nil))).map
    EnvironmentConfig.mk

/-- Embedding of the class `Environment(NameEq, Canonical)`: a name and the
exclusively owned `EnvironmentConfig`. -/
structure Environment where
  name : String
  config : EnvironmentConfig
deriving DecidableEq, Repr

/-- Embedding of `Environment.__init__(name, config=None)`:
`self.config = EnvironmentConfig(**(config or {}))`.  Splatting the raw
mapping into `EnvironmentConfig`, whose only parameter is `plugins`, raises
`TypeError` on any other top-level key; otherwise the `plugins` value (or the
default `None`) is passed through. -/
def Environment.ofRaw (name : String) (config : Option JObj) :
    Except EnvError Environment :=
  let cfg := config.getD .nil
  match cfg.firstKeyNotIn ["plugins"] with
  | some k => .error (.unexpectedKeywordArgument k)
  | none => (EnvironmentConfig.ofPluginsArg (cfg.lookup "plugins")).map
      (Environment.mk name)

/-- Embedding of the method `Environment.get_plugin_config`:
`self.config.plugins.get((plugin_type, name))`. -/
def Environment.get_plugin_config (env : Environment) (pt : PluginType)
    (nm : JVal) : Option EnvironmentPluginConfig :=
  alookup env.config.plugins (pt, nm)

/-! ## Heap model for `copy.deepcopy`

The statement `self.config = copy.deepcopy(config or {})` in
`EnvironmentPluginConfig.__init__` is about object identity, not just value:
a later in-place mutation of the caller's mapping (or of any object nested in
it) must not change the stored config, and vice versa.  To state this, Python
objects are modelled with an explicit heap: a mutable dict is an address, the
heap maps addresses to dict nodes, immutable scalars are inline.  `snapVal`
reads the structural value ("snapshot") of a heap value with a fuel bound on
dict depth; `deepcopyVal` models `copy.deepcopy` on (acyclic) values,
allocating only fresh addresses. -/

/-- Heap value: an immutable scalar held inline, or the address of a mutable
dict object. -/
inductive HVal where
  | vnull : HVal
  | vbool : Bool → HVal
  | vint : Int → HVal
  | vstr : String → HVal
  | vdict : Nat → HVal
deriving DecidableEq, Repr

/-- A dict object on the heap: ordered items with heap values. -/
abbrev HDict := List (String × HVal)

/-- The heap: a partial map from addresses to dict objects. -/
abbrev Heap := Nat → Option HDict

/-- In-place mutation of the object at address `addr` (the heap effect of any
Python statement mutating that dict: item assignment, `update`, `clear`...). -/
def updateHeap (h : Heap) (addr : Nat) (d : HDict) : Heap :=
  fun b => if b = addr then some d else h b

/-- Structural snapshot of a list of dict items, given a snapshot function
for the values (used at one smaller fuel). -/
def snapFold (f : HVal → Option JVal) : HDict → Option JObj
  | [] => some .nil
  | (k, v) :: tl =>
    match f v, snapFold f tl with
    | some j, some js => some (.cons k j js)
    | _, _ => none

/-- Structural snapshot of a heap value: the pure `JVal` it denotes, reading
dict references through the heap, with `fuel` bounding the dict depth.
A dangling address or exhausted fuel yields `none`. -/
def snapVal : Nat → Heap → HVal → Option JVal
  | _, _, .vnull => some .jnull
  | _, _, .vbool b => some (.jbool b)
  | _, _, .vint i => some (.jint i)
  | _, _, .vstr s => some (.jstr s)
  | 0, _, .vdict _ => none
  | fuel + 1, h, .vdict a =>
    match h a with
    | none => none
    | some entries => (snapFold (snapVal fuel h) entries).map JVal.jobj

/-- One layer of `deepcopyVal` over the items of a dict: copies the values
left to right, threading the heap and the next fresh address. -/
def copyFold (f : Heap → Nat → HVal → Option (HVal × Heap × Nat)) :
    Heap → Nat → HDict → Option (HDict × Heap × Nat)
  | h, next, [] => some ([], h, next)
  | h, next, (k, v) :: tl =>
    match f h next v with
    | none => none
    | some (v2, h2, n2) =>
      match copyFold f h2 n2 tl with
      | none => none
      | some (es, h3, n3) => some ((k, v2) :: es, h3, n3)

/-- Model of `copy.deepcopy` on a heap value: scalars are returned as is, a
dict is copied recursively into freshly allocated addresses (`next` is the
allocator: every address at or above it is free).  Returns the copied value,
the extended heap and the new allocator frontier; `fuel` bounds the dict
depth. -/
def deepcopyVal : Nat → Heap → Nat → HVal → Option (HVal × Heap × Nat)
  | _, h, next, .vnull => some (.vnull, h, next)
  | _, h, next, .vbool b => some (.vbool b, h, next)
  | _, h, next, .vint i => some (.vint i, h, next)
  | _, h, next, .vstr s => some (.vstr s, h, next)
  | 0, _, _, .vdict _ => none
  | fuel + 1, h, next, .vdict a =>
    match h a with
    | none => none
    | some entries =>
      match copyFold (deepcopyVal fuel) h next entries with
      | none => none
      | some (es, h2, n2) => some (.vdict n2, updateHeap h2 n2 es, n2 + 1)

/-- Heap-level model of the statement `self.config = copy.deepcopy(config or
{})` for a provided raw mapping: the stored config is the deep copy of the
argument.  (When the argument is a falsy value the code copies a fresh empty
dict literal instead; observationally, for an empty dict argument, both paths
store a fresh empty dict.) -/
def initStoredConfig (fuel : Nat) (h : Heap) (next : Nat) (rawConfig : HVal) :
    Option (HVal × Heap × Nat) :=
  deepcopyVal fuel h next rawConfig

/-- Allocator invariant: every address at or above `next` is unallocated. -/
def wfHeap (next : Nat) (h : Heap) : Prop :=
  ∀ a, next ≤ a → h a = none

/-- Two heaps agree on the address interval `[lo, hi)`. -/
def agreeOn (lo hi : Nat) (h1 h2 : Heap) : Prop :=
  ∀ a, lo ≤ a → a < hi → h1 a = h2 a

/-! ## Reference functions for the claims

The functions below do not embed source code; they restate, over the embedded
raw input, quantities that the claims and the spec speak about (the last raw
spec resolving to a key, the resolved keys of all raw specs, the total number
of raw specs, and an executable "this group loads without error" check). -/

/-- Modelled from the spec: the plugin built from "the last such spec in
iteration order" within one group — folds the group's raw specs left to
right, keeping the latest one that builds and resolves to `key`. -/
def lastForGroup (pt : PluginType) (key : PluginKey)
    (acc : Option EnvironmentPluginConfig) :
    JList → Option EnvironmentPluginConfig
  | .nil => acc
  | .cons raw tl =>
    lastForGroup pt key
      (match raw with
       | .jobj rawObj =>
         match EnvironmentPluginConfig.ofRaw pt rawObj with
         | .ok p => if (pt, p.name) = key then some p else acc
         | .error _ => acc
       | _ => acc) tl

/-- Modelled from the spec: fold of `lastForGroup` over all groups in
iteration order. -/
def lastForAux (key : PluginKey) (acc : Option EnvironmentPluginConfig) :
    JObj → Option EnvironmentPluginConfig
  | .nil => acc
  | .cons rawType rawPlugins tl =>
    lastForAux key
      (match PluginType.ofString rawType, rawPlugins with
       | some pt, .jarr rs => lastForGroup pt key acc rs
       | _, _ => acc) tl

/-- Modelled from the spec: "the PluginOverride built from the last such spec
in iteration order" for a given composite key, over the whole raw plugins
mapping. -/
def lastFor (groups : JObj) (key : PluginKey) :
    Option EnvironmentPluginConfig :=
  lastForAux key none groups

/-- Resolved `(plugin type, name)` keys of the raw specs of one group, in
iteration order (specs without a readable name contribute nothing; under a
successful load every spec contributes exactly one key). -/
def groupKeys (pt : PluginType) : JList → List PluginKey
  | .nil => []
  | .cons raw tl =>
    (match raw with
     | .jobj rawObj =>
       match rawObj.lookup "name" with
       | some nm => [(pt, nm)]
       | none => []
     | _ => []) ++ groupKeys pt tl

/-- Resolved `(plugin type, name)` keys of all raw specs of the raw plugins
mapping, in iteration order. -/
def resolvedKeys : JObj → List PluginKey
  | .nil => []
  | .cons rawType rawPlugins tl =>
    (match PluginType.ofString rawType, rawPlugins with
     | some pt, .jarr rs => groupKeys pt rs
     | _, _ => []) ++ resolvedKeys tl

/-- Total number of raw specs in the raw plugins mapping. -/
def totalSpecCount : JObj → Nat
  | .nil => 0
  | .cons _ rawPlugins tl =>
    (match rawPlugins with
     | .jarr rs => rs.length
     | _ => 0) + totalSpecCount tl

/-- Executable check that one raw spec builds without error: it is a dict,
carries a `name`, and carries neither a `self` nor a `plugin_type` key (each
of which would collide with an already-bound parameter of the splatted
`__init__` call). -/
def specLoads (raw : JVal) : Bool :=
  match raw with
  | .jobj rawObj =>
    (rawObj.lookup "name").isSome && (rawObj.lookup "self").isNone &&
      (rawObj.lookup "plugin_type").isNone
  | _ => false

/-- Executable check that every raw spec of a list builds without error. -/
def JList.allSpecsLoad : JList → Bool
  | .nil => true
  | .cons raw tl => specLoads raw && tl.allSpecsLoad

/-- Executable check that one `(raw type, raw specs)` group loads without
error: the type string resolves and every spec in the list builds. -/
def groupLoads (rawType : String) (rawPlugins : JVal) : Bool :=
  (PluginType.ofString rawType).isSome &&
    match rawPlugins with
    | .jarr rs => rs.allSpecsLoad
    | _ => false

/-! ## Concrete example inputs

Small concrete values, used to evaluate the embedded operations at specific
inputs. -/

/-- Example stored config `{"a": 1, "_s": 2}` (note the literal
underscore-prefixed key `"_s"`, colliding with the extras key `"s"`). -/
def exConfigObj : JObj :=
  .cons "a" (.jint 1) (.cons "_s" (.jint 2) .nil)

/-- Example constructed plugin configuration with extras `{"s": 3}`. -/
def exPlugin : EnvironmentPluginConfig :=
  ⟨.extractor, .jstr "tap-csv", .jobj exConfigObj, .cons "s" (.jint 3) .nil⟩

/-- Example raw spec `{"name": "tap-csv", "config": {"a": 1}}`. -/
def exSpecA : JVal :=
  .jobj (.cons "name" (.jstr "tap-csv") (.cons "config" (.jobj (.cons "a" (.jint 1) .nil)) .nil))

/-- Example raw spec `{"name": "tap-csv", "config": {"a": 2}}` — resolves to
the same `(type, name)` pair as `exSpecA`. -/
def exSpecB : JVal :=
  .jobj (.cons "name" (.jstr "tap-csv") (.cons "config" (.jobj (.cons "a" (.jint 2) .nil)) .nil))

/-- Example raw plugins mapping
`{"extractors": [exSpecA, exSpecB]}` — two raw specs resolving to the same
`(type, name)` pair. -/
def exDupGroups : JObj :=
  .cons "extractors" (.jarr (.cons exSpecA (.cons exSpecB .nil))) .nil

/-- The plugin configuration built from `exSpecA`. -/
def exPluginA : EnvironmentPluginConfig :=
  ⟨.extractor, .jstr "tap-csv", .jobj (.cons "a" (.jint 1) .nil), .nil⟩

/-- The plugin configuration built from `exSpecB`. -/
def exPluginB : EnvironmentPluginConfig :=
  ⟨.extractor, .jstr "tap-csv", .jobj (.cons "a" (.jint 2) .nil), .nil⟩

/-- The index built from `exGroups`. -/
def exMap : PluginMap := [((.extractor, .jstr "tap-csv"), exPluginA)]

/-- The index built from `exDupGroups` (only the later spec survives). -/
def exDupMap : PluginMap := [((.extractor, .jstr "tap-csv"), exPluginB)]

/-- The environment built from `("dev", exEnvRaw)`. -/
def exEnv : Environment := ⟨"dev", ⟨exMap⟩⟩

/-- Example raw plugins mapping `{"extractors": [exSpecA]}`. -/
def exGroups : JObj :=
  .cons "extractors" (.jarr (.cons exSpecA .nil)) .nil

/-- Example raw environment configuration
`{"plugins": {"extractors": [exSpecA]}}`. -/
def exEnvRaw : JObj :=
  .cons "plugins" (.jobj exGroups) .nil

/-- Example raw plugins mapping with an unknown plugin-type key:
`{"extractors": [exSpecA], "bogus": []}`. -/
def exBadGroups : JObj :=
  .cons "extractors" (.jarr (.cons exSpecA .nil)) (.cons "bogus" (.jarr .nil) .nil)

/-- Example raw environment configuration with an unrecognized top-level key:
`{"plugins": {}, "unknown": 1}`. -/
def exBadEnvRaw : JObj :=
  .cons "plugins" (.jobj .nil) (.cons "unknown" (.jint 1) .nil)

/-- Example heap holding one dict object `{"x": 1}` at address `0`. -/
def exHeap : Heap := fun a => if a = 0 then some [("x", HVal.vint 1)] else none

/-! ## Basic lemmas on the dict operations -/

/-- Structural induction for `JObj` along its tail (the value components are
not descended into). -/
@[induction_eliminator]
theorem JObj.objTailInduction {motive : JObj → Prop} (nil : motive .nil)
    (cons : ∀ k v tl, motive tl → motive (.cons k v tl)) : ∀ o, motive o
  | .nil => nil
  | .cons k v tl => cons k v tl (JObj.objTailInduction nil cons tl)

/-- Structural induction for `JList` along its tail. -/
@[induction_eliminator]
theorem JList.listTailInduction {motive : JList → Prop} (nil : motive .nil)
    (cons : ∀ v tl, motive tl → motive (.cons v tl)) : ∀ l, motive l
  | .nil => nil
  | .cons v tl => cons v tl (JList.listTailInduction nil cons tl)

theorem alookup_ainsert {κ α : Type} [DecidableEq κ] (l : List (κ × α))
    (key : κ) (val : α) (k : κ) :
    alookup (ainsert l key val) k = if k = key then some val else alookup l k := by
  induction l with
  | nil =>
    by_cases h : k = key
    · simp [ainsert, alookup, h]
    · simp [ainsert, alookup, h, Ne.symm h]
  | cons hd tl ih =>
    obtain ⟨k0, v0⟩ := hd
    by_cases h0 : k0 = key
    · subst h0
      by_cases h : k0 = k
      · subst h
        simp [ainsert, alookup]
      · simp [ainsert, alookup, h, Ne.symm h]
    · by_cases h : k0 = k
      · subst h
        simp [ainsert, alookup, h0, Ne.symm h0]
      · simp [ainsert, alookup, h0, h, ih]

theorem akeys_ainsert_mem {κ α : Type} [DecidableEq κ] (l : List (κ × α))
    (key : κ) (val : α) (h : key ∈ l.map Prod.fst) :
    (ainsert l key val).map Prod.fst = l.map Prod.fst := by
  induction l with
  | nil => simp at h
  | cons hd tl ih =>
    obtain ⟨k0, v0⟩ := hd
    rw [List.map_cons, List.mem_cons] at h
    by_cases h0 : k0 = key
    · simp [ainsert, h0]
    · rcases h with h | h
      · exact absurd h.symm h0
      · simp [ainsert, h0, ih h]

theorem akeys_ainsert_notMem {κ α : Type} [DecidableEq κ] (l : List (κ × α))
    (key : κ) (val : α) (h : key ∉ l.map Prod.fst) :
    (ainsert l key val).map Prod.fst = l.map Prod.fst ++ [key] := by
  induction l with
  | nil => simp [ainsert]
  | cons hd tl ih =>
    obtain ⟨k0, v0⟩ := hd
    rw [List.map_cons, List.mem_cons] at h
    push_neg at h
    simp [ainsert, Ne.symm h.1, ih h.2]

theorem nodup_ainsert {κ α : Type} [DecidableEq κ] (l : List (κ × α))
    (key : κ) (val : α) (h : (l.map Prod.fst).Nodup) :
    ((ainsert l key val).map Prod.fst).Nodup := by
  by_cases hm : key ∈ l.map Prod.fst
  · rw [akeys_ainsert_mem l key val hm]
    exact h
  · rw [akeys_ainsert_notMem l key val hm]
    simp [List.nodup_append, h, hm]

theorem alookup_eq_none {κ α : Type} [DecidableEq κ] (l : List (κ × α)) (k : κ) :
    alookup l k = none ↔ k ∉ l.map Prod.fst := by
  induction l with
  | nil => simp [alookup]
  | cons hd tl ih =>
    obtain ⟨k0, v0⟩ := hd
    rw [List.map_cons, List.mem_cons]
    by_cases h0 : k0 = k
    · subst h0
      simp [alookup]
    · simp [alookup, h0, ih, Ne.symm h0]

theorem mem_ainsert {κ α : Type} [DecidableEq κ] (l : List (κ × α))
    (key : κ) (val : α) (kv : κ × α) (h : kv ∈ ainsert l key val) :
    kv = (key, val) ∨ kv ∈ l := by
  induction l with
  | nil =>
    simp [ainsert] at h
    exact Or.inl h
  | cons hd tl ih =>
    obtain ⟨k0, v0⟩ := hd
    by_cases h0 : k0 = key
    · subst h0
      simp only [ainsert, if_pos rfl, ite_true, List.mem_cons] at h
      rcases h with h | h
      · exact Or.inl h
      · exact Or.inr (List.mem_cons_of_mem _ h)
    · simp only [ainsert, if_neg h0] at h
      rw [List.mem_cons] at h
      rcases h with h | h
      · exact Or.inr (by rw [h]; exact List.mem_cons_self _ _)
      · rcases ih h with h2 | h2
        · exact Or.inl h2
        · exact Or.inr (List.mem_cons_of_mem _ h2)

theorem JObj.lookup_setItem (o : JObj) (key : String) (val : JVal) (k : String) :
    (o.setItem key val).lookup k = if k = key then some val else o.lookup k := by
  induction o with
  | nil =>
    by_cases h : k = key
    · simp [JObj.setItem, JObj.lookup, h]
    · simp [JObj.setItem, JObj.lookup, h, Ne.symm h]
  | cons k0 v0 tl ih =>
    by_cases h0 : k0 = key
    · subst h0
      by_cases h : k0 = k
      · subst h
        simp [JObj.setItem, JObj.lookup]
      · simp [JObj.setItem, JObj.lookup, h, Ne.symm h]
    · by_cases h : k0 = k
      · subst h
        simp [JObj.setItem, JObj.lookup, h0, Ne.symm h0]
      · simp [JObj.setItem, JObj.lookup, h0, h, ih]

theorem JObj.lookup_eq_none (o : JObj) (k : String) :
    o.lookup k = none ↔ k ∉ o.keys := by
  induction o with
  | nil => simp [JObj.lookup, JObj.keys]
  | cons k0 v0 tl ih =>
    rw [JObj.keys, List.mem_cons]
    by_cases h0 : k0 = k
    · subst h0
      simp [JObj.lookup]
    · simp [JObj.lookup, h0, ih, Ne.symm h0]

theorem JObj.dunion_lookup (b : JObj) (a : JObj) (k : String)
    (hb : b.keys.Nodup) :
    (a.dunion b).lookup k =
      match b.lookup k with
      | some v => some v
      | none => a.lookup k := by
  induction b generalizing a with
  | nil => simp [JObj.dunion, JObj.lookup]
  | cons k0 v0 tl ih =>
    rw [JObj.keys] at hb
    rw [List.nodup_cons] at hb
    rw [JObj.dunion, ih _ hb.2]
    by_cases h : k = k0
    · subst h
      have htl : tl.lookup k = none := (JObj.lookup_eq_none tl k).mpr hb.1
      simp [htl, JObj.lookup, JObj.lookup_setItem]
    · rw [JObj.lookup_setItem]
      simp [JObj.lookup, h, Ne.symm h]

theorem JObj.keys_underscoreKeys (o : JObj) :
    o.underscoreKeys.keys = o.keys.map (fun k => "_" ++ k) := by
  induction o with
  | nil => simp [JObj.underscoreKeys, JObj.keys]
  | cons k0 v0 tl ih => simp [JObj.underscoreKeys, JObj.keys, ih]

theorem underscoreCancel (a b : String) : "_" ++ a = "_" ++ b ↔ a = b := by
  constructor
  · intro h
    have h2 : ("_" ++ a).data = ("_" ++ b).data := by rw [h]
    simp [String.data_append] at h2
    exact String.ext h2
  · intro h
    rw [h]

theorem JObj.lookup_underscoreKeys (o : JObj) (k : String) :
    o.underscoreKeys.lookup ("_" ++ k) = o.lookup k := by
  induction o with
  | nil => simp [JObj.underscoreKeys, JObj.lookup]
  | cons k0 v0 tl ih =>
    by_cases h : k0 = k
    · subst h
      simp [JObj.underscoreKeys, JObj.lookup]
    · have h2 : ¬("_" ++ k0 = "_" ++ k) := fun e => h ((underscoreCancel k0 k).mp e)
      simp [JObj.underscoreKeys, JObj.lookup, h, h2, ih]

theorem nodup_underscoreKeys (o : JObj) (h : o.keys.Nodup) :
    o.underscoreKeys.keys.Nodup := by
  rw [JObj.keys_underscoreKeys]
  exact List.Nodup.map (fun a b e => (underscoreCancel a b).mp e) h

/-! ## Claim theorems -/

/-- C1: for every `EnvironmentPluginConfig` `p` (whose stored `config` is a
dict, as the claim presupposes, and whose extras keys are distinct, as
`**extras` guarantees), `p.config_with_extras` equals the dict union
`{**p.config, **p.extra_config}`; the result contains every key of
`p.config` and every key of `p.extra_config`; for a key present in both the
result holds the `extra_config` value, and for a key absent from
`extra_config` it holds the `config` value.  The embedded operation is a pure
function building a fresh value, so it mutates neither source mapping. -/
theorem C1_config_with_extras (p : EnvironmentPluginConfig) (c : JObj)
    (hc : p.config = JVal.jobj c) (hx : p.extras.keys.Nodup) :
    ∃ r, p.config_with_extras = some r ∧
      r = c.dunion p.extra_config ∧
      (∀ k, (r.lookup k).isSome ↔
        ((c.lookup k).isSome ∨ (p.extra_config.lookup k).isSome)) ∧
      (∀ k v, p.extra_config.lookup k = some v → r.lookup k = some v) ∧
      (∀ k, p.extra_config.lookup k = none → r.lookup k = c.lookup k) := by
  have hbn : p.extra_config.keys.Nodup :=
    nodup_underscoreKeys p.extras hx
  refine ⟨c.dunion p.extra_config, ?_, rfl, ?_, ?_, ?_⟩
  · simp [EnvironmentPluginConfig.config_with_extras, hc]
  · intro k
    rw [JObj.dunion_lookup p.extra_config c k hbn]
    cases heq : p.extra_config.lookup k with
    | none => simp [heq]
    | some v => simp [heq]
  · intro k v h
    rw [JObj.dunion_lookup p.extra_config c k hbn, h]
  · intro k h
    rw [JObj.dunion_lookup p.extra_config c k hbn, h]

/-- Witness for C1 at the concrete plugin configuration `exPlugin`, whose
config `{"a": 1, "_s": 2}` and extras `{"s": 3}` collide on the key
`"_s"`. -/
theorem C1_config_with_extras_witness :
    ∃ r, exPlugin.config_with_extras = some r ∧
      r = exConfigObj.dunion exPlugin.extra_config ∧
      (∀ k, (r.lookup k).isSome ↔
        ((exConfigObj.lookup k).isSome ∨ (exPlugin.extra_config.lookup k).isSome)) ∧
      (∀ k v, exPlugin.extra_config.lookup k = some v → r.lookup k = some v) ∧
      (∀ k, exPlugin.extra_config.lookup k = none →
        r.lookup k = exConfigObj.lookup k) :=
  C1_config_with_extras exPlugin exConfigObj rfl (by decide)

/-- C7: for every `EnvironmentPluginConfig` `p`, the keys of `p.extra_config`
are exactly the keys of `p.extras` each with a single leading underscore (in
the same order, so no other key occurs), and the value stored under `"_" ++ k`
is identically the value stored under `k` in `p.extras`.  The embedded
operation is a pure function of `p.extras`, hence deterministic and
non-mutating. -/
theorem C7_extra_config_underscores (p : EnvironmentPluginConfig) :
    p.extra_config.keys = p.extras.keys.map (fun k => "_" ++ k) ∧
    ∀ k, p.extra_config.lookup ("_" ++ k) = p.extras.lookup k :=
  ⟨JObj.keys_underscoreKeys p.extras,
   fun k => JObj.lookup_underscoreKeys p.extras k⟩

/-! ## Lemmas on `load_plugins` -/

theorem loadGroupAux_alookup (pt : PluginType) (rs : JList) :
    ∀ acc m, loadGroupAux pt acc rs = .ok m →
      ∀ key, alookup m key = lastForGroup pt key (alookup acc key) rs := by
  induction rs with
  | nil =>
    intro acc m h key
    simp only [loadGroupAux] at h
    injection h with h
    subst h
    simp [lastForGroup]
  | cons raw tl ih =>
    intro acc m h key
    cases raw
    case jobj rawObj =>
      simp only [loadGroupAux] at h
      cases hofr : EnvironmentPluginConfig.ofRaw pt rawObj with
      | error e =>
        rw [hofr] at h
        simp at h
      | ok p =>
        rw [hofr] at h
        rw [ih _ _ h key]
        have ha : alookup (ainsert acc (pt, p.name) p) key
            = if (pt, p.name) = key then some p else alookup acc key := by
          rw [alookup_ainsert]
          by_cases hk : (pt, p.name) = key
          · simp [hk]
          · simp [hk, Ne.symm hk]
        simp only [lastForGroup, hofr, ha]
    all_goals simp [loadGroupAux] at h

theorem loadPluginsAux_alookup (groups : JObj) :
    ∀ acc m, loadPluginsAux acc groups = .ok m →
      ∀ key, alookup m key = lastForAux key (alookup acc key) groups := by
  induction groups with
  | nil =>
    intro acc m h key
    simp only [loadPluginsAux] at h
    injection h with h
    subst h
    simp [lastForAux]
  | cons rawType rawPlugins tl ih =>
    intro acc m h key
    simp only [loadPluginsAux] at h
    split at h
    · simp at h
    · rename_i pt hot
      split at h
      · rename_i rs
        split at h
        · simp at h
        · rename_i acc2 hlg
          rw [ih _ _ h key]
          rw [loadGroupAux_alookup pt rs acc acc2 hlg key]
          simp only [lastForAux, hot]
      · simp at h

theorem loadGroupAux_nodup (pt : PluginType) (rs : JList) :
    ∀ acc m, loadGroupAux pt acc rs = .ok m →
      (acc.map Prod.fst).Nodup → (m.map Prod.fst).Nodup := by
  induction rs with
  | nil =>
    intro acc m h hn
    simp only [loadGroupAux] at h
    injection h with h
    subst h
    exact hn
  | cons raw tl ih =>
    intro acc m h hn
    cases raw
    case jobj rawObj =>
      simp only [loadGroupAux] at h
      cases hofr : EnvironmentPluginConfig.ofRaw pt rawObj with
      | error e =>
        rw [hofr] at h
        simp at h
      | ok p =>
        rw [hofr] at h
        exact ih _ _ h (nodup_ainsert acc (pt, p.name) p hn)
    all_goals simp [loadGroupAux] at h

theorem loadPluginsAux_nodup (groups : JObj) :
    ∀ acc m, loadPluginsAux acc groups = .ok m →
      (acc.map Prod.fst).Nodup → (m.map Prod.fst).Nodup := by
  induction groups with
  | nil =>
    intro acc m h hn
    simp only [loadPluginsAux] at h
    injection h with h
    subst h
    exact hn
  | cons rawType rawPlugins tl ih =>
    intro acc m h hn
    simp only [loadPluginsAux] at h
    split at h
    · simp at h
    · rename_i pt hot
      split at h
      · rename_i rs
        split at h
        · simp at h
        · rename_i acc2 hlg
          exact ih _ _ h (loadGroupAux_nodup pt rs acc acc2 hlg hn)
      · simp at h

/-- C2: whenever `EnvironmentConfig.load_plugins` succeeds on a raw plugins
mapping — in particular on one where several raw specs resolve to the same
`(plugin type, name)` key, which is not an error — the resulting index has
pairwise distinct keys (so at most one entry per key), and the entry stored
under any key is exactly the `EnvironmentPluginConfig` built from the last
raw spec in iteration order resolving to that key (last-write-wins). -/
theorem C2_last_write_wins (groups : JObj) (m : PluginMap)
    (h : EnvironmentConfig.load_plugins (.jobj groups) = .ok m) :
    (m.map Prod.fst).Nodup ∧ ∀ key, alookup m key = lastFor groups key := by
  have h2 : loadPluginsAux [] groups = .ok m := h
  refine ⟨loadPluginsAux_nodup groups [] m h2 (by simp), fun key => ?_⟩
  have h3 := loadPluginsAux_alookup groups [] m h2 key
  simpa [lastFor, alookup] using h3

/-- Witness for C2 at the concrete raw mapping `exDupGroups`, whose two raw
specs both resolve to `(extractor, "tap-csv")`: construction succeeds, the
index holds the single entry `exDupMap`, and the stored entry is the plugin
built from the second (later) spec, with `config = {"a": 2}`. -/
theorem C2_last_write_wins_witness :
    ((exDupMap.map Prod.fst).Nodup ∧
      ∀ key, alookup exDupMap key = lastFor exDupGroups key) ∧
    alookup exDupMap (.extractor, .jstr "tap-csv") = some exPluginB :=
  ⟨C2_last_write_wins exDupGroups exDupMap rfl, by decide⟩

theorem ofRaw_ok_fields (pt : PluginType) (rawObj : JObj)
    (p : EnvironmentPluginConfig)
    (h : EnvironmentPluginConfig.ofRaw pt rawObj = .ok p) :
    p.plugin_type = pt ∧ rawObj.lookup "name" = some p.name := by
  simp only [EnvironmentPluginConfig.ofRaw] at h
  split at h
  · simp at h
  · split at h
    · simp at h
    · split at h
      · simp at h
      · rename_i nm hnm
        injection h with h
        subst h
        exact ⟨rfl, hnm⟩

theorem loadGroupAux_keyMatch (pt : PluginType) (rs : JList) :
    ∀ acc m, loadGroupAux pt acc rs = .ok m →
      (∀ kv ∈ acc, kv.1 = (kv.2.plugin_type, kv.2.name)) →
      ∀ kv ∈ m, kv.1 = (kv.2.plugin_type, kv.2.name) := by
  induction rs with
  | nil =>
    intro acc m h hi
    simp only [loadGroupAux] at h
    injection h with h
    subst h
    exact hi
  | cons raw tl ih =>
    intro acc m h hi
    cases raw
    case jobj rawObj =>
      simp only [loadGroupAux] at h
      cases hofr : EnvironmentPluginConfig.ofRaw pt rawObj with
      | error e =>
        rw [hofr] at h
        simp at h
      | ok p =>
        rw [hofr] at h
        refine ih _ _ h ?_
        intro kv hkv
        rcases mem_ainsert acc (pt, p.name) p kv hkv with h2 | h2
        · rw [h2]
          have hfld := (ofRaw_ok_fields pt rawObj p hofr).1
          simp [hfld]
        · exact hi kv h2
    all_goals simp [loadGroupAux] at h

theorem loadPluginsAux_keyMatch (groups : JObj) :
    ∀ acc m, loadPluginsAux acc groups = .ok m →
      (∀ kv ∈ acc, kv.1 = (kv.2.plugin_type, kv.2.name)) →
      ∀ kv ∈ m, kv.1 = (kv.2.plugin_type, kv.2.name) := by
  induction groups with
  | nil =>
    intro acc m h hi
    simp only [loadPluginsAux] at h
    injection h with h
    subst h
    exact hi
  | cons rawType rawPlugins tl ih =>
    intro acc m h hi
    simp only [loadPluginsAux] at h
    split at h
    · simp at h
    · rename_i pt hot
      split at h
      · rename_i rs
        split at h
        · simp at h
        · rename_i acc2 hlg
          exact ih _ _ h (loadGroupAux_keyMatch pt rs acc acc2 hlg hi)
      · simp at h

/-- C5: on every successfully constructed plugins index, each entry's key is
exactly the `(plugin_type, name)` pair of the `EnvironmentPluginConfig`
stored as its value.  The embedded objects are immutable values, so the
invariant holds for the whole lifetime of the constructed object. -/
theorem C5_entry_key_matches (groups : JObj) (m : PluginMap)
    (h : EnvironmentConfig.load_plugins (.jobj groups) = .ok m) :
    ∀ kv ∈ m, kv.1 = (kv.2.plugin_type, kv.2.name) :=
  loadPluginsAux_keyMatch groups [] m h (by simp)

/-- Witness for C5 at the index built from `exDupGroups`, evaluated at its
single entry. -/
theorem C5_entry_key_matches_witness :
    ((PluginType.extractor, JVal.jstr "tap-csv"), exPluginB).1 =
      (exPluginB.plugin_type, exPluginB.name) :=
  C5_entry_key_matches exDupGroups exDupMap rfl
    ((PluginType.extractor, JVal.jstr "tap-csv"), exPluginB) (by decide)

theorem loadGroupAux_akeys (pt : PluginType) (rs : JList) :
    ∀ acc m, loadGroupAux pt acc rs = .ok m →
      List.Disjoint (acc.map Prod.fst) (groupKeys pt rs) →
      (groupKeys pt rs).Nodup →
      m.map Prod.fst = acc.map Prod.fst ++ groupKeys pt rs := by
  induction rs with
  | nil =>
    intro acc m h _ _
    simp only [loadGroupAux] at h
    injection h with h
    subst h
    simp [groupKeys]
  | cons raw tl ih =>
    intro acc m h hd hn
    cases raw
    case jobj rawObj =>
      simp only [loadGroupAux] at h
      cases hofr : EnvironmentPluginConfig.ofRaw pt rawObj with
      | error e =>
        rw [hofr] at h
        simp at h
      | ok p =>
        rw [hofr] at h
        have hnm : rawObj.lookup "name" = some p.name :=
          (ofRaw_ok_fields pt rawObj p hofr).2
        have hgk : groupKeys pt (.cons (.jobj rawObj) tl)
            = (pt, p.name) :: groupKeys pt tl := by
          simp [groupKeys, hnm]
        rw [hgk] at hd hn ⊢
        rw [List.nodup_cons] at hn
        have hnotacc : (pt, p.name) ∉ acc.map Prod.fst :=
          fun hmem => hd hmem (List.mem_cons_self _ _)
        have hkeys2 : (ainsert acc (pt, p.name) p).map Prod.fst
            = acc.map Prod.fst ++ [(pt, p.name)] :=
          akeys_ainsert_notMem acc (pt, p.name) p hnotacc
        have hd2 : List.Disjoint ((ainsert acc (pt, p.name) p).map Prod.fst)
            (groupKeys pt tl) := by
          rw [hkeys2]
          intro a ha hb
          rcases List.mem_append.mp ha with ha2 | ha2
          · exact hd ha2 (List.mem_cons_of_mem _ hb)
          · rw [List.mem_singleton] at ha2
            subst ha2
            exact hn.1 hb
        rw [ih _ _ h hd2 hn.2, hkeys2]
        simp
    all_goals simp [loadGroupAux] at h

theorem loadPluginsAux_akeys (groups : JObj) :
    ∀ acc m, loadPluginsAux acc groups = .ok m →
      List.Disjoint (acc.map Prod.fst) (resolvedKeys groups) →
      (resolvedKeys groups).Nodup →
      m.map Prod.fst = acc.map Prod.fst ++ resolvedKeys groups := by
  induction groups with
  | nil =>
    intro acc m h _ _
    simp only [loadPluginsAux] at h
    injection h with h
    subst h
    simp [resolvedKeys]
  | cons rawType rawPlugins tl ih =>
    intro acc m h hd hn
    simp only [loadPluginsAux] at h
    split at h
    · simp at h
    · rename_i pt hot
      split at h
      · rename_i rs
        split at h
        · simp at h
        · rename_i acc2 hlg
          have hrk : resolvedKeys (.cons rawType (.jarr rs) tl)
              = groupKeys pt rs ++ resolvedKeys tl := by
            simp [resolvedKeys, hot]
          rw [hrk] at hd hn ⊢
          rw [List.nodup_append] at hn
          obtain ⟨hn1, hn2, hdisj⟩ := hn
          have hd1 : List.Disjoint (acc.map Prod.fst) (groupKeys pt rs) := by
            intro a ha hb
            exact hd ha (List.mem_append.mpr (Or.inl hb))
          have hk1 := loadGroupAux_akeys pt rs acc acc2 hlg hd1 hn1
          have hd2 : List.Disjoint (acc2.map Prod.fst) (resolvedKeys tl) := by
            rw [hk1]
            intro a ha hb
            rcases List.mem_append.mp ha with ha2 | ha2
            · exact hd ha2 (List.mem_append.mpr (Or.inr hb))
            · exact hdisj ha2 hb
          rw [ih _ _ h hd2 hn2, hk1]
          simp
      · simp at h

theorem loadGroupAux_count (pt : PluginType) (rs : JList) :
    ∀ acc m, loadGroupAux pt acc rs = .ok m →
      (groupKeys pt rs).length = rs.length := by
  induction rs with
  | nil =>
    intro acc m _
    simp [groupKeys, JList.length]
  | cons raw tl ih =>
    intro acc m h
    cases raw
    case jobj rawObj =>
      simp only [loadGroupAux] at h
      cases hofr : EnvironmentPluginConfig.ofRaw pt rawObj with
      | error e =>
        rw [hofr] at h
        simp at h
      | ok p =>
        rw [hofr] at h
        have hnm := (ofRaw_ok_fields pt rawObj p hofr).2
        simp [groupKeys, hnm, JList.length, ih _ _ h]
    all_goals simp [loadGroupAux] at h

theorem loadPluginsAux_count (groups : JObj) :
    ∀ acc m, loadPluginsAux acc groups = .ok m →
      (resolvedKeys groups).length = totalSpecCount groups := by
  induction groups with
  | nil =>
    intro acc m _
    simp [resolvedKeys, totalSpecCount]
  | cons rawType rawPlugins tl ih =>
    intro acc m h
    simp only [loadPluginsAux] at h
    split at h
    · simp at h
    · rename_i pt hot
      split at h
      · rename_i rs
        split at h
        · simp at h
        · rename_i acc2 hlg
          simp [resolvedKeys, totalSpecCount, hot,
            loadGroupAux_count pt rs acc acc2 hlg, ih _ _ h]
      · simp at h

/-- C8: when `EnvironmentConfig.load_plugins` succeeds on a raw plugins
mapping whose raw specs resolve to pairwise distinct `(plugin type, name)`
pairs, the constructed index contains exactly as many entries as there are
raw specs in total. -/
theorem C8_distinct_specs_count (groups : JObj) (m : PluginMap)
    (h : EnvironmentConfig.load_plugins (.jobj groups) = .ok m)
    (hnd : (resolvedKeys groups).Nodup) :
    m.length = totalSpecCount groups := by
  have h2 : loadPluginsAux [] groups = .ok m := h
  have hk := loadPluginsAux_akeys groups [] m h2 (by intro a ha hb; simp at ha) hnd
  have hlen : m.length = (m.map Prod.fst).length := by simp
  rw [hlen, hk]
  simp [loadPluginsAux_count groups [] m h2]

/-- Witness for C8 at the concrete raw mapping `exGroups` (one raw spec, one
resolved key): the index has exactly one entry. -/
theorem C8_distinct_specs_count_witness :
    exMap.length = totalSpecCount exGroups :=
  C8_distinct_specs_count exGroups exMap rfl (by decide)

theorem specLoads_ok (pt : PluginType) (raw : JVal) (h : specLoads raw = true) :
    ∃ rawObj p, raw = .jobj rawObj ∧
      EnvironmentPluginConfig.ofRaw pt rawObj = .ok p := by
  cases raw
  case jobj rawObj =>
    simp only [specLoads, Bool.and_eq_true] at h
    obtain ⟨⟨h1, h2⟩, h3⟩ := h
    rw [Option.isSome_iff_exists] at h1
    obtain ⟨nm, hnm⟩ := h1
    rw [Option.isNone_iff_eq_none] at h2
    rw [Option.isNone_iff_eq_none] at h3
    refine ⟨rawObj,
      ⟨pt, nm, ((rawObj.lookup "config").getD JVal.jnull).pyOrElse (JVal.jobj .nil),
        rawObj.dropKeys ["name", "config", "plugin_type"]⟩, rfl, ?_⟩
    simp [EnvironmentPluginConfig.ofRaw, h2, h3, hnm]
  all_goals simp [specLoads] at h

theorem loadGroupAux_ok_of_allSpecsLoad (pt : PluginType) (rs : JList)
    (h : rs.allSpecsLoad = true) :
    ∀ acc, ∃ acc2, loadGroupAux pt acc rs = .ok acc2 := by
  induction rs with
  | nil =>
    intro acc
    exact ⟨acc, rfl⟩
  | cons raw tl ih =>
    intro acc
    simp only [JList.allSpecsLoad, Bool.and_eq_true] at h
    obtain ⟨h1, h2⟩ := h
    obtain ⟨rawObj, p, hraw, hofr⟩ := specLoads_ok pt raw h1
    subst hraw
    obtain ⟨acc2, hacc2⟩ := ih h2 (ainsert acc (pt, p.name) p)
    refine ⟨acc2, ?_⟩
    simp only [loadGroupAux, hofr]
    exact hacc2

theorem loadPluginsAux_error_of_badType (groups : JObj) (t : String) (v : JVal)
    (hbad : PluginType.ofString t = none) :
    ∀ acc, (t, v) ∈ groups.toList →
      ∃ e, loadPluginsAux acc groups = .error e := by
  induction groups with
  | nil =>
    intro acc hmem
    simp [JObj.toList] at hmem
  | cons rawType rawPlugins tl ih =>
    intro acc hmem
    rw [JObj.toList, List.mem_cons] at hmem
    cases hot : PluginType.ofString rawType with
    | none => exact ⟨.invalidPluginType rawType, by simp [loadPluginsAux, hot]⟩
    | some pt =>
      have hmem2 : (t, v) ∈ tl.toList := by
        rcases hmem with h1 | h1
        · exfalso
          rw [Prod.mk.injEq] at h1
          rw [h1.1] at hbad
          rw [hbad] at hot
          simp at hot
        · exact h1
      cases rawPlugins
      case jarr rs =>
        cases hlg : loadGroupAux pt acc rs with
        | error e => exact ⟨e, by simp [loadPluginsAux, hot, hlg]⟩
        | ok acc2 =>
          obtain ⟨e, he⟩ := ih acc2 hmem2
          exact ⟨e, by simp [loadPluginsAux, hot, hlg, he]⟩
      all_goals exact ⟨.notAList, by simp [loadPluginsAux, hot]⟩

theorem loadPluginsAux_invalid_first (groups : JObj) (t : String) (v : JVal)
    (hbad : PluginType.ofString t = none) :
    ∀ acc, (t, v) ∈ groups.toList →
      (∀ p ∈ groups.toList, p.1 ≠ t → groupLoads p.1 p.2 = true) →
      loadPluginsAux acc groups = .error (.invalidPluginType t) := by
  induction groups with
  | nil =>
    intro acc hmem
    simp [JObj.toList] at hmem
  | cons rawType rawPlugins tl ih =>
    intro acc hmem hrest
    by_cases hrt : rawType = t
    · subst hrt
      simp [loadPluginsAux, hbad]
    · have hgl : groupLoads rawType rawPlugins = true := by
        refine hrest (rawType, rawPlugins) ?_ hrt
        rw [JObj.toList]
        exact List.mem_cons_self _ _
      simp only [groupLoads, Bool.and_eq_true] at hgl
      obtain ⟨hg1, hg2⟩ := hgl
      rw [Option.isSome_iff_exists] at hg1
      obtain ⟨pt, hot⟩ := hg1
      have hmem2 : (t, v) ∈ tl.toList := by
        rw [JObj.toList, List.mem_cons] at hmem
        rcases hmem with h1 | h1
        · exfalso
          rw [Prod.mk.injEq] at h1
          exact hrt h1.1.symm
        · exact h1
      have hrest2 : ∀ p ∈ tl.toList, p.1 ≠ t → groupLoads p.1 p.2 = true := by
        intro p hp hne
        refine hrest p ?_ hne
        rw [JObj.toList]
        exact List.mem_cons_of_mem _ hp
      rcases rawPlugins with _ | b | i | s | rs | o
      · simp at hg2
      · simp at hg2
      · simp at hg2
      · simp at hg2
      · obtain ⟨acc2, hacc2⟩ := loadGroupAux_ok_of_allSpecsLoad pt rs hg2 acc
        simp only [loadPluginsAux, hot, hacc2]
        exact ih acc2 hmem2 hrest2
      · simp at hg2

/-- C4: a raw plugins mapping containing a top-level type key that does not
resolve to a known plugin type never constructs successfully: `load_plugins`
returns an error (propagated, not recovered), and when every other group
loads cleanly the error is precisely the invalid-plugin-type error for that
key. -/
theorem C4_invalid_plugin_type (groups : JObj) (t : String) (v : JVal)
    (hmem : (t, v) ∈ groups.toList) (hbad : PluginType.ofString t = none) :
    (∃ e, EnvironmentConfig.load_plugins (.jobj groups) = .error e) ∧
    ((∀ p ∈ groups.toList, p.1 ≠ t → groupLoads p.1 p.2 = true) →
      EnvironmentConfig.load_plugins (.jobj groups)
        = .error (.invalidPluginType t)) := by
  constructor
  · exact loadPluginsAux_error_of_badType groups t v hbad [] hmem
  · intro hrest
    exact loadPluginsAux_invalid_first groups t v hbad [] hmem hrest

/-- Witness for C4 at the concrete raw mapping `exBadGroups`, whose second
type key `"bogus"` resolves to no plugin type: construction fails, with the
invalid-plugin-type error naming `"bogus"`. -/
theorem C4_invalid_plugin_type_witness :
    (∃ e, EnvironmentConfig.load_plugins (.jobj exBadGroups) = .error e) ∧
    EnvironmentConfig.load_plugins (.jobj exBadGroups)
      = .error (.invalidPluginType "bogus") :=
  ⟨(C4_invalid_plugin_type exBadGroups "bogus" (.jarr .nil) (by decide) rfl).1,
   (C4_invalid_plugin_type exBadGroups "bogus" (.jarr .nil) (by decide) rfl).2
     (by decide)⟩

theorem firstKeyNotIn_of_mem (allowed : List String) (cfg : JObj) :
    ∀ k v, (k, v) ∈ cfg.toList → k ∉ allowed →
      ∃ k2, cfg.firstKeyNotIn allowed = some k2 ∧ k2 ∉ allowed := by
  induction cfg with
  | nil =>
    intro k v hmem _
    simp [JObj.toList] at hmem
  | cons k0 v0 tl ih =>
    intro k v hmem hk
    by_cases h0 : k0 ∈ allowed
    · rw [JObj.toList, List.mem_cons] at hmem
      rcases hmem with h1 | h1
      · exfalso
        rw [Prod.mk.injEq] at h1
        rw [h1.1] at hk
        exact hk h0
      · obtain ⟨k2, h2, h3⟩ := ih k v h1 hk
        exact ⟨k2, by simp [JObj.firstKeyNotIn, h0, h2], h3⟩
    · exact ⟨k0, by simp [JObj.firstKeyNotIn, h0], h0⟩

/-- C10: constructing an `Environment` from a non-`None` raw configuration
mapping containing any top-level key other than `"plugins"` fails with an
unexpected-keyword-argument error (the mapping is splatted into
`EnvironmentConfig`, which accepts only `plugins`); the unrecognized keys are
not silently ignored. -/
theorem C10_unexpected_top_level_key (name : String) (cfg : JObj)
    (k : String) (v : JVal)
    (hmem : (k, v) ∈ cfg.toList) (hk : k ≠ "plugins") :
    ∃ k2, Environment.ofRaw name (some cfg)
        = .error (.unexpectedKeywordArgument k2) ∧ k2 ≠ "plugins" := by
  have hk2 : k ∉ ["plugins"] := by simp [hk]
  obtain ⟨k2, h2, h3⟩ := firstKeyNotIn_of_mem ["plugins"] cfg k v hmem hk2
  refine ⟨k2, ?_, by simpa using h3⟩
  simp [Environment.ofRaw, h2]

/-- Witness for C10 at the concrete raw configuration `exBadEnvRaw`, which
carries the extra top-level key `"unknown"`. -/
theorem C10_unexpected_top_level_key_witness :
    ∃ k2, Environment.ofRaw "dev" (some exBadEnvRaw)
        = .error (.unexpectedKeywordArgument k2) ∧ k2 ≠ "plugins" :=
  C10_unexpected_top_level_key "dev" exBadEnvRaw "unknown" (.jint 1)
    (by decide) (by decide)

/-- C9: constructing an `Environment` from a name with no raw configuration
mapping succeeds and yields an owned `EnvironmentConfig` whose plugins index
is empty. -/
theorem C9_no_config_empty (name : String) :
    ∃ env, Environment.ofRaw name none = .ok env ∧
      env.name = name ∧ env.config.plugins.length = 0 :=
  ⟨⟨name, ⟨[]⟩⟩, rfl, rfl, rfl⟩

/-- C3: `Environment.get_plugin_config` is a pure lookup.  On the environment
built from `("dev", {"plugins": {"extractors": [{"name": "tap-csv",
"config": {"a": 1}}]}})` it returns the stored override, whose config is
`{"a": 1}`, for `(extractor, "tap-csv")`; and on every environment it returns
the explicit absent value `none` — never an error — for any
`(plugin type, name)` pair not present in the index. -/
theorem C3_get_plugin_config :
    (∃ (env : Environment) (p : EnvironmentPluginConfig),
      Environment.ofRaw "dev" (some exEnvRaw) = .ok env ∧
      env.get_plugin_config .extractor (.jstr "tap-csv") = some p ∧
      p.config = .jobj (.cons "a" (.jint 1) .nil)) ∧
    (∀ (env : Environment) (pt : PluginType) (nm : JVal),
      (pt, nm) ∉ env.config.plugins.map Prod.fst →
      env.get_plugin_config pt nm = none) := by
  constructor
  · exact ⟨exEnv, exPluginA, rfl, rfl, rfl⟩
  · intro env pt nm h
    exact (alookup_eq_none env.config.plugins (pt, nm)).mpr h

/-- Witness for C3 at the concrete environment `exEnv` and the absent pair
`(loader, "tap-csv")`. -/
theorem C3_get_plugin_config_witness :
    exEnv.get_plugin_config .loader (.jstr "tap-csv") = none :=
  C3_get_plugin_config.2 exEnv .loader (.jstr "tap-csv") (by decide)

/-! ## Lemmas on the heap model of `copy.deepcopy` -/

theorem snapFold_mono (f g : HVal → Option JVal)
    (hfg : ∀ v j, f v = some j → g v = some j) :
    ∀ l js, snapFold f l = some js → snapFold g l = some js := by
  intro l
  induction l with
  | nil =>
    intro js hs
    exact hs
  | cons kv tl ih =>
    intro js hs
    obtain ⟨k, v⟩ := kv
    rw [snapFold] at hs ⊢
    split at hs
    · rename_i j js2 hfv hft
      rw [hfg v j hfv, ih js2 hft]
      exact hs
    · simp at hs

theorem snapVal_agree : ∀ (fuel : Nat) (h h2 : Heap) (next : Nat),
    wfHeap next h → (∀ a, a < next → h2 a = h a) →
    ∀ v s, snapVal fuel h v = some s → snapVal fuel h2 v = some s := by
  intro fuel
  induction fuel with
  | zero =>
    intro h h2 next hwf hag v s hs
    cases v
    case vdict a => simp [snapVal] at hs
    all_goals exact hs
  | succ f ih =>
    intro h h2 next hwf hag v s hs
    cases v
    case vdict a =>
      rw [snapVal] at hs
      split at hs
      · simp at hs
      · rename_i entries hha
        have ha : a < next := by
          by_contra hcon
          push_neg at hcon
          rw [hwf a hcon] at hha
          simp at hha
        rw [Option.map_eq_some'] at hs
        obtain ⟨js, hjs, hseq⟩ := hs
        have h2js := snapFold_mono (snapVal f h) (snapVal f h2)
          (fun w jw hw => ih h h2 next hwf hag w jw hw) entries js hjs
        rw [snapVal, hag a ha, hha]
        show (snapFold (snapVal f h2) entries).map JVal.jobj = some s
        rw [h2js, ← hseq]
        rfl
    all_goals exact hs

theorem copyFold_spec (fuel : Nat)
    (IH : ∀ (h h3 : Heap) (next : Nat) (v : HVal) (s : JVal) (c : HVal) (n2 : Nat),
      wfHeap next h → snapVal fuel h v = some s →
      deepcopyVal fuel h next v = some (c, h3, n2) →
      next ≤ n2 ∧ (∀ a, a < next ∨ n2 ≤ a → h3 a = h a) ∧ wfHeap n2 h3 ∧
        (∀ h4, agreeOn next n2 h3 h4 → snapVal fuel h4 c = some s)) :
    ∀ (l : HDict) (h : Heap) (next : Nat) (js : JObj) (es : HDict)
      (h2 : Heap) (n2 : Nat),
      wfHeap next h → snapFold (snapVal fuel h) l = some js →
      copyFold (deepcopyVal fuel) h next l = some (es, h2, n2) →
      next ≤ n2 ∧ (∀ a, a < next ∨ n2 ≤ a → h2 a = h a) ∧ wfHeap n2 h2 ∧
        (∀ h4, agreeOn next n2 h2 h4 → snapFold (snapVal fuel h4) es = some js) := by
  intro l
  induction l with
  | nil =>
    intro h next js es h2 n2 hwf hs hc
    simp only [copyFold] at hc
    rw [Option.some.injEq, Prod.mk.injEq, Prod.mk.injEq] at hc
    obtain ⟨hc1, hc2, hc3⟩ := hc
    subst hc1
    subst hc2
    subst hc3
    simp only [snapFold] at hs
    injection hs with hs
    subst hs
    exact ⟨le_refl next, fun a ha => rfl, hwf, fun h4 hag => rfl⟩
  | cons kv tl ih =>
    intro h next js es h2 n2 hwf hs hc
    obtain ⟨k, v⟩ := kv
    rw [snapFold] at hs
    split at hs
    · rename_i j js2 hsv hst
      injection hs with hs
      subst hs
      rw [copyFold] at hc
      split at hc
      · simp at hc
      · rename_i v2 hA nA hdc
        split at hc
        · simp at hc
        · rename_i es2 hB nB hcf
          rw [Option.some.injEq, Prod.mk.injEq, Prod.mk.injEq] at hc
          obtain ⟨hc1, hc2, hc3⟩ := hc
          subst hc1
          subst hc2
          subst hc3
          obtain ⟨hle1, hag1, hwf1, hsnap1⟩ := IH h hA next v j v2 nA hwf hsv hdc
          have hst2 : snapFold (snapVal fuel hA) tl = some js2 :=
            snapFold_mono (snapVal fuel h) (snapVal fuel hA)
              (fun w jw hw => snapVal_agree fuel h hA next hwf
                (fun a ha => hag1 a (Or.inl ha)) w jw hw) tl js2 hst
          obtain ⟨hle2, hag2, hwf2, hsnap2⟩ := ih hA nA js2 es2 hB nB hwf1 hst2 hcf
          refine ⟨le_trans hle1 hle2, ?_, hwf2, ?_⟩
          · intro a ha
            rcases ha with ha | ha
            · rw [hag2 a (Or.inl (lt_of_lt_of_le ha hle1)), hag1 a (Or.inl ha)]
            · rw [hag2 a (Or.inr ha), hag1 a (Or.inr (le_trans hle2 ha))]
          · intro h4 hagr
            rw [snapFold]
            have hv2 : snapVal fuel h4 v2 = some j := by
              apply hsnap1
              intro a ha1 ha2
              rw [← hag2 a (Or.inl ha2)]
              exact hagr a ha1 (lt_of_lt_of_le ha2 hle2)
            have hes2 : snapFold (snapVal fuel h4) es2 = some js2 := by
              apply hsnap2
              intro a ha1 ha2
              exact hagr a (le_trans hle1 ha1) ha2
            rw [hv2, hes2]
    · simp at hs

theorem deepcopy_spec : ∀ (fuel : Nat) (h h3 : Heap) (next : Nat) (v : HVal)
    (s : JVal) (c : HVal) (n2 : Nat),
    wfHeap next h → snapVal fuel h v = some s →
    deepcopyVal fuel h next v = some (c, h3, n2) →
    next ≤ n2 ∧ (∀ a, a < next ∨ n2 ≤ a → h3 a = h a) ∧ wfHeap n2 h3 ∧
      (∀ h4, agreeOn next n2 h3 h4 → snapVal fuel h4 c = some s) := by
  intro fuel
  induction fuel with
  | zero =>
    intro h h3 next v s c n2 hwf hs hc
    cases v
    case vdict a => simp [deepcopyVal] at hc
    all_goals (
      simp only [deepcopyVal] at hc
      rw [Option.some.injEq, Prod.mk.injEq, Prod.mk.injEq] at hc
      obtain ⟨hc1, hc2, hc3⟩ := hc
      subst hc1
      subst hc2
      subst hc3
      exact ⟨le_refl next, fun b hb => rfl, hwf, fun h4 hag => hs⟩)
  | succ f ihf =>
    intro h h3 next v s c n2 hwf hs hc
    cases v
    case vdict a =>
      rw [deepcopyVal] at hc
      split at hc
      · simp at hc
      · rename_i entries hha
        split at hc
        · simp at hc
        · rename_i es h2m n2m hcf
          rw [Option.some.injEq, Prod.mk.injEq, Prod.mk.injEq] at hc
          obtain ⟨hc1, hc2, hc3⟩ := hc
          subst hc1
          subst hc2
          subst hc3
          rw [snapVal] at hs
          simp only [hha] at hs
          rw [Option.map_eq_some'] at hs
          obtain ⟨js, hjs, hseq⟩ := hs
          subst hseq
          obtain ⟨hle, hag, hwfm, hsnap⟩ :=
            copyFold_spec f ihf entries h next js es h2m n2m hwf hjs hcf
          refine ⟨by omega, ?_, ?_, ?_⟩
          · intro b hb
            have hbne : b ≠ n2m := by rcases hb with hb | hb <;> omega
            simp only [updateHeap]
            rw [if_neg hbne]
            rcases hb with hb | hb
            · exact hag b (Or.inl hb)
            · exact hag b (Or.inr (by omega))
          · intro b hb
            simp only [updateHeap]
            rw [if_neg (by omega)]
            exact hwfm b (by omega)
          · intro h4 hagr
            have h4n : h4 n2m = some es := by
              rw [← hagr n2m (by omega) (by omega)]
              simp [updateHeap]
            have hsf : snapFold (snapVal f h4) es = some js := by
              apply hsnap
              intro b hb1 hb2
              have hub : updateHeap h2m n2m es b = h2m b := by
                simp only [updateHeap]
                rw [if_neg (by omega)]
              rw [← hub]
              exact hagr b hb1 (by omega)
            rw [snapVal, h4n]
            show (snapFold (snapVal f h4) es).map JVal.jobj = some (JVal.jobj js)
            rw [hsf]
            rfl
    all_goals (
      simp only [deepcopyVal] at hc
      rw [Option.some.injEq, Prod.mk.injEq, Prod.mk.injEq] at hc
      obtain ⟨hc1, hc2, hc3⟩ := hc
      subst hc1
      subst hc2
      subst hc3
      exact ⟨le_refl next, fun b hb => rfl, hwf, fun h4 hag => hs⟩)

/-- C6: heap-level deep-copy isolation for the stored config of
`EnvironmentPluginConfig.__init__`.  For any well-formed heap (`next` is the
allocation frontier), any raw config value `m` whose structural snapshot is
`s`, and a successful `initStoredConfig` (the model of
`self.config = copy.deepcopy(config or {})`) yielding the stored value `c` in
heap `h2`: the stored value snapshots to exactly `s`; any in-place mutation
of any pre-existing object — in particular of `m` or of any value nested in
it — leaves the stored value's snapshot unchanged; and any in-place mutation
of any freshly allocated object — in particular of the stored copy or of any
value nested in it — leaves `m`'s snapshot unchanged. -/
theorem C6_deepcopy_isolation (fuel : Nat) (h : Heap) (next : Nat) (m : HVal)
    (s : JVal) (c : HVal) (h2 : Heap) (n2 : Nat)
    (hwf : wfHeap next h) (hsnap : snapVal fuel h m = some s)
    (hcopy : initStoredConfig fuel h next m = some (c, h2, n2)) :
    snapVal fuel h2 c = some s ∧
    (∀ a d, a < next → snapVal fuel (updateHeap h2 a d) c = some s) ∧
    (∀ a d, next ≤ a → snapVal fuel (updateHeap h2 a d) m = some s) := by
  obtain ⟨hle, hag, hwf2, hsnap2⟩ :=
    deepcopy_spec fuel h h2 next m s c n2 hwf hsnap hcopy
  refine ⟨hsnap2 h2 (fun b hb1 hb2 => rfl), ?_, ?_⟩
  · intro a d ha
    apply hsnap2
    intro b hb1 hb2
    simp only [updateHeap]
    rw [if_neg (by omega)]
  · intro a d ha
    apply snapVal_agree fuel h (updateHeap h2 a d) next hwf ?_ m s hsnap
    intro b hb
    simp only [updateHeap]
    rw [if_neg (by omega)]
    exact hag b (Or.inl hb)

/-- Witness for C6 at a concrete one-entry heap: the dict `{"x": 1}` at
address `0` is deep-copied to address `1`, then the original object at
address `0` is mutated in place to `{}`; the snapshot of the stored copy
still reads `{"x": 1}`. -/
theorem C6_deepcopy_isolation_witness :
    snapVal 1 (updateHeap (updateHeap exHeap 1 [("x", HVal.vint 1)]) 0 [])
      (HVal.vdict 1) = some (.jobj (.cons "x" (.jint 1) .nil)) :=
  (C6_deepcopy_isolation 1 exHeap 1 (HVal.vdict 0)
      (.jobj (.cons "x" (.jint 1) .nil)) (HVal.vdict 1)
      (updateHeap exHeap 1 [("x", HVal.vint 1)]) 2
      (by
        intro a ha
        simp only [exHeap]
        rw [if_neg (by omega)])
      rfl rfl).2.1 0 [] (by omega)
